import Mathlib

/-!
# Verification of the FindingWaldo RTMP → FLV recording pipeline

This file is a shallow embedding, in Lean 4, of the per-connection
ingestion-to-recording pipeline of the FindingWaldo repository (Go):
the path resolver used by `OnPublish`, the FLV tag codec, the key-frame
computer-vision transform stage (`processFrameWithCV` with its
placeholder internals), and the session callbacks
(`OnPublish`, `OnSetDataFrame`, `OnAudio`, `OnVideo`, `OnClose`).

Strings are modelled as `List Char`, bytes as `Nat` (with `< 256`
hypotheses where a byte round trip needs them), files as explicit
records with a write position and a closed flag, and Go `error`
results as `Option`/`Except`.  A runtime panic (nil-pointer
dereference) is a distinguished `Outcome.fault`, separate from an
`error` return value.
-/

namespace FindingWaldo

/-! ## Path resolver

The Go source resolves the untrusted publishing name with

  `filepath.Join("received/", filepath.Clean(filepath.Join("/", name + ".flv")))`

`filepath.Clean` (Linux) is the lexical Plan-9 cleaning algorithm: the
path is split on `/`, empty and `.` elements are dropped, `..` pops the
previous element (and is dropped at the root of a rooted path), and the
result is re-joined.  `filepath.Join` joins its (non-empty) arguments
with `/` and cleans the result.  We model paths as `List Char` and the
cleaning pass on the component list. -/

/-- Split a path into its `/`-separated components
(`splitComps "a/b" = ["a", "b"]`, `splitComps "" = [""]`). -/
def splitComps : List Char → List (List Char)
  | [] => [[]]
  | c :: rest =>
    if c = '/' then [] :: splitComps rest
    else
      match splitComps rest with
      | [] => [[c]]
      | comp :: comps => (c :: comp) :: comps

/-- Re-join components with `/` (left inverse of `splitComps` on
slash-free components). -/
def joinComps : List (List Char) → List Char
  | [] => []
  | [c] => c
  | c :: rest => c ++ '/' :: joinComps rest

/-- The effect of a `..` element on the stack of kept components
(most recent first): it pops a kept component, is dropped at the root
of a rooted path, and is kept when a relative path cannot back up over
an earlier kept `..`. -/
def popDotDot (rooted : Bool) (acc : List (List Char)) : List (List Char) :=
  match acc with
  | [] => if rooted then [] else [['.', '.']]
  | top :: accRest =>
    if top = ['.', '.'] then ['.', '.'] :: top :: accRest else accRest

/-- The component-level work loop of Go's `filepath.Clean`: `acc` is the
stack of kept components (most recent first).  Empty and `.` components
are dropped; `..` acts on the stack via `popDotDot`. -/
def cleanWork (rooted : Bool) : List (List Char) → List (List Char) → List (List Char)
  | acc, [] => acc.reverse
  | acc, c :: rest =>
    if c = [] ∨ c = ['.'] then cleanWork rooted acc rest
    else if c = ['.', '.'] then cleanWork rooted (popDotDot rooted acc) rest
    else cleanWork rooted (c :: acc) rest

/-- Single-step unfolding of the cleaning loop on an empty input. -/
theorem cleanWork_nil (rooted : Bool) (acc : List (List Char)) :
    cleanWork rooted acc [] = acc.reverse := rfl

/-- Single-step unfolding of the cleaning loop on one component. -/
theorem cleanWork_cons (rooted : Bool) (acc : List (List Char)) (c : List Char)
    (rest : List (List Char)) :
    cleanWork rooted acc (c :: rest) =
      if c = [] ∨ c = ['.'] then cleanWork rooted acc rest
      else if c = ['.', '.'] then cleanWork rooted (popDotDot rooted acc) rest
      else cleanWork rooted (c :: acc) rest := rfl

/-- Go's `filepath.Clean` on Linux, over `List Char` paths. -/
def clean (path : List Char) : List Char :=
  if path = [] then ['.']
  else if path.head? = some '/' then
    '/' :: joinComps (cleanWork true [] (splitComps path))
  else if cleanWork false [] (splitComps path) = [] then ['.']
  else joinComps (cleanWork false [] (splitComps path))

/-- Go's `filepath.Join` restricted to two elements: leading empty
elements are skipped, the rest are joined with `/` and cleaned. -/
def joinPath (a b : List Char) : List Char :=
  if a = [] then (if b = [] then [] else clean b)
  else clean (a ++ '/' :: b)

/-- The fixed base directory `"received/"` passed to `filepath.Join`. -/
def receivedDir : List Char := "received/".toList

/-- `".flv"`, appended by `fmt.Sprintf("%s.flv", cmd.PublishingName)`. -/
def flvExt : List Char := ".flv".toList

/-- The path computed by `OnPublish` for a publishing name:
`filepath.Join("received/", filepath.Clean(filepath.Join("/", name+".flv")))`. -/
def resolvePath (name : List Char) : List Char :=
  joinPath receivedDir (clean (joinPath ['/'] (name ++ flvExt)))

/-- Containment in the base directory: the path starts with
`"received/"` and no component is the traversal element `".."`. -/
def withinBase (p : List Char) : Bool :=
  receivedDir.isPrefixOf p && (splitComps p).all (fun c => !decide (c = ['.', '.']))

/-! ## Tag codec

Modelled from the spec: the repository delegates tag payload
decoding/encoding to the external `go-flv` tag-codec library, which is
not under `src/`.  Spec §2/§4.4 fix the codec's shape — it "decodes
protocol payload bytes into typed Script/Audio/Video records" and
re-encodes them, where a video tag is (frame-type, codec id, packet),
an AVC packet is (packet-type, payload), and audio/script are typed
records over the standard FLV/AMF0 byte layout.  Bytes are `Nat`s. -/

/-- A byte sequence whose elements are genuine bytes. -/
def okBytes (bs : List Nat) : Bool := bs.all (· < 256)

/-- `FrameTypeKeyFrame` (FLV video frame type 1). -/
def FrameTypeKeyFrame : Nat := 1

/-- `CodecIDAVC` (FLV video codec id 7). -/
def CodecIDAVC : Nat := 7

/-- `AVCPacketTypeNALU` (AVC packet type 1, NAL-unit data). -/
def AVCPacketTypeNALU : Nat := 1

/-- `SoundFormat` value for AAC (10). -/
def SoundFormatAAC : Nat := 10

/-- Modelled from the spec: `flvtag.AudioData` — the decoded audio
record (header fields plus remaining payload bytes). -/
structure AudioData where
  soundFormat : Nat
  soundRate : Nat
  soundSize : Nat
  soundType : Nat
  aacPacketType : Option Nat
  data : List Nat
deriving DecidableEq, Repr

/-- Modelled from the spec: `flvtag.DecodeAudioData` — one header byte
(format/rate/size/type bit fields), an extra AAC packet-type byte when
the format is AAC, and the rest as payload. -/
def decodeAudioData : List Nat → Option AudioData
  | [] => none
  | b :: rest =>
    let fmt := b / 16
    let rate := b / 4 % 4
    let size := b / 2 % 2
    let ty := b % 2
    if fmt = SoundFormatAAC then
      match rest with
      | [] => none
      | pt :: rest2 => some ⟨fmt, rate, size, ty, some pt, rest2⟩
    else some ⟨fmt, rate, size, ty, none, rest⟩

/-- Modelled from the spec: `flvtag.EncodeAudioData`. -/
def encodeAudioData (a : AudioData) : List Nat :=
  (a.soundFormat * 16 + a.soundRate * 4 + a.soundSize * 2 + a.soundType) ::
    (match a.aacPacketType with
     | some pt => pt :: a.data
     | none => a.data)

/-- Modelled from the spec: `flvtag.VideoData` — frame type, codec id,
and the remaining payload bytes (for AVC, the AVC packet). -/
structure VideoData where
  frameType : Nat
  codecID : Nat
  data : List Nat
deriving DecidableEq, Repr

/-- Modelled from the spec: `flvtag.DecodeVideoData` — one header byte:
frame type in the high nibble, codec id in the low nibble. -/
def decodeVideoData : List Nat → Option VideoData
  | [] => none
  | b :: rest => some ⟨b / 16, b % 16, rest⟩

/-- Modelled from the spec: `flvtag.EncodeVideoData`. -/
def encodeVideoData (v : VideoData) : List Nat :=
  (v.frameType * 16 + v.codecID) :: v.data

/-- Modelled from the spec: `flvtag.AVCVideoPacket` — AVC packet type,
the three raw composition-time bytes, and the NAL-unit payload. -/
structure AVCVideoPacket where
  avcPacketType : Nat
  compositionTime : List Nat
  data : List Nat
deriving DecidableEq, Repr

/-- Modelled from the spec: `flvtag.DecodeAVCVideoPacket` — one
packet-type byte, three composition-time bytes, rest is payload. -/
def decodeAVCVideoPacket : List Nat → Option AVCVideoPacket
  | pt :: c1 :: c2 :: c3 :: rest => some ⟨pt, [c1, c2, c3], rest⟩
  | _ => none

/-- Modelled from the spec: `flvtag.EncodeAVCVideoPacket`. -/
def encodeAVCVideoPacket (p : AVCVideoPacket) : List Nat :=
  p.avcPacketType :: (p.compositionTime ++ p.data)

/-! ### AMF0 script data

Modelled from the spec: `flvtag.ScriptData` decodes the script payload
as AMF0 name/value pairs.  `Amf0` is a single inductive covering both
AMF0 values and property lists (the `enil`/`econs` constructors are the
object-end-terminated property lists inside an ECMA array); the parser
only ever builds well-shaped terms.  IEEE-754 number payloads and the
approximate ECMA-array count are kept as their raw bytes. -/

inductive Amf0 where
  | num (d : List Nat)
  | boolV (b : Nat)
  | strV (s : List Nat)
  | nullV
  | ecma (count : List Nat) (entries : Amf0)
  | enil
  | econs (key : List Nat) (value : Amf0) (rest : Amf0)
deriving DecidableEq, Repr

/-- Read exactly `n` bytes. -/
def readN (n : Nat) (bs : List Nat) : Option (List Nat × List Nat) :=
  if n ≤ bs.length then some (bs.take n, bs.drop n) else none

/-- Parse a (markerless) AMF0 string: 16-bit big-endian length, then
that many bytes. -/
def parseStr : List Nat → Option (List Nat × List Nat)
  | b1 :: b2 :: rest => readN (b1 * 256 + b2) rest
  | _ => none

/-- Big-endian 16-bit length bytes. -/
def u16be (n : Nat) : List Nat := [n / 256 % 256, n % 256]

/-- Fuel-indexed AMF0 parser.  Mode `true` parses one value (markers:
0 number, 1 boolean, 2 string, 5 null, 8 ECMA array); mode `false`
parses an object-end-terminated property list. -/
def parseA : Nat → Bool → List Nat → Option (Amf0 × List Nat)
  | 0, _, _ => none
  | _ + 1, true, [] => none
  | n + 1, true, m :: bs =>
    if m = 0 then
      match readN 8 bs with
      | some (d, rest) => some (.num d, rest)
      | none => none
    else if m = 1 then
      match bs with
      | b :: rest => some (.boolV b, rest)
      | [] => none
    else if m = 2 then
      match parseStr bs with
      | some (s, rest) => some (.strV s, rest)
      | none => none
    else if m = 5 then some (.nullV, bs)
    else if m = 8 then
      match readN 4 bs with
      | some (cnt, rest) =>
        match parseA n false rest with
        | some (es, rest2) => some (.ecma cnt es, rest2)
        | none => none
      | none => none
    else none
  | n + 1, false, bs =>
    if bs.take 3 = [0, 0, 9] then some (.enil, bs.drop 3)
    else
      match parseStr bs with
      | none => none
      | some (k, rest) =>
        if k = [] then none
        else
          match parseA n true rest with
          | none => none
          | some (v, rest2) =>
            match parseA n false rest2 with
            | some (es, rest3) => some (.econs k v es, rest3)
            | none => none

/-- Serialize an AMF0 string (16-bit big-endian length, then bytes). -/
def serStr (s : List Nat) : List Nat := u16be s.length ++ s

/-- Serialize an AMF0 value or property list. -/
def serVal : Amf0 → List Nat
  | .num d => 0 :: d
  | .boolV b => [1, b]
  | .strV s => 2 :: serStr s
  | .nullV => [5]
  | .ecma cnt es => 8 :: (cnt ++ serVal es)
  | .enil => [0, 0, 9]
  | .econs k v r => serStr k ++ serVal v ++ serVal r

/-- Modelled from the spec: `flvtag.ScriptData` — the decoded sequence
of top-level (marker-2 string name, AMF0 value) pairs, in order. -/
structure ScriptData where
  objects : List (List Nat × Amf0)
deriving DecidableEq, Repr

/-- Top-level script-data loop: (string name, value) pairs until the
payload is exhausted. -/
def parseTop : Nat → List Nat → Option (List (List Nat × Amf0))
  | _, [] => some []
  | 0, _ :: _ => none
  | n + 1, m :: bs =>
    if m = 2 then
      match parseStr bs with
      | none => none
      | some (k, rest) =>
        match parseA n true rest with
        | none => none
        | some (v, rest2) =>
          match parseTop n rest2 with
          | some es => some ((k, v) :: es)
          | none => none
    else none

/-- Modelled from the spec: `flvtag.DecodeScriptData`. -/
def decodeScriptData (bs : List Nat) : Option ScriptData :=
  (parseTop (bs.length + 1) bs).map ScriptData.mk

/-- Serialize the top-level pairs of a script tag. -/
def serTop : List (List Nat × Amf0) → List Nat
  | [] => []
  | (k, v) :: es => 2 :: (serStr k ++ serVal v) ++ serTop es

/-- Modelled from the spec: `flvtag.EncodeScriptData`. -/
def encodeScriptData (sd : ScriptData) : List Nat :=
  serTop sd.objects

/-! ### FLV container framing

Modelled from the spec (§4.4): the container writer emits a fixed
header reflecting the audio/video capability flags, then each tag as
(type, timestamp, length, payload, size trailer). -/

/-- FLV tag type bytes: script data 18, audio 8, video 9. -/
def TagTypeScriptData : Nat := 18

/-- FLV audio tag type. -/
def TagTypeAudio : Nat := 8

/-- FLV video tag type. -/
def TagTypeVideo : Nat := 9

/-- `flvtag.FlvTag`: tag type, 32-bit timestamp, encoded payload. -/
structure FlvTag where
  tagType : Nat
  timestamp : Nat
  data : List Nat
deriving DecidableEq, Repr

/-- Big-endian 24-bit bytes. -/
def u24be (n : Nat) : List Nat := [n / 65536 % 256, n / 256 % 256, n % 256]

/-- Big-endian 32-bit bytes. -/
def u32be (n : Nat) : List Nat :=
  [n / 16777216 % 256, n / 65536 % 256, n / 256 % 256, n % 256]

/-- Modelled from the spec: one framed FLV tag — type byte, 24-bit data
size, 24-bit timestamp plus extended byte, stream id 0, payload, and
the 32-bit previous-tag-size trailer. -/
def encodeFlvTag (t : FlvTag) : List Nat :=
  t.tagType :: u24be t.data.length ++ u24be (t.timestamp % 16777216) ++
    [t.timestamp / 16777216 % 256] ++ [0, 0, 0] ++ t.data ++
    u32be (11 + t.data.length)

/-- Modelled from the spec: the fixed FLV file header written by
`flv.NewEncoder(f, flv.FlagsAudio|flv.FlagsVideo)` — signature "FLV",
version 1, capability flags audio|video = 5, header size 9, and the
zero previous-tag-size. -/
def flvHeader : List Nat := [70, 76, 86, 1, 5, 0, 0, 0, 9, 0, 0, 0, 0]

/-! ## Frame transform stage (`processFrameWithCV` and its internals) -/

/-- `extractFrameFromNALU`: placeholder in the source — `io.ReadAll`
on the NAL-unit bytes, i.e. the bytes themselves. -/
def extractFrameFromNALU (naluData : List Nat) : Except String (List Nat) :=
  .ok naluData

/-- `applyComputerVision`: placeholder in the source — returns the
original frame data. -/
def applyComputerVision (frameData : List Nat) : Except String (List Nat) :=
  .ok frameData

/-- `packFrameToNALU`: placeholder in the source — returns the frame
data unchanged. -/
def packFrameToNALU (frameData : List Nat) : Except String (List Nat) :=
  .ok frameData

/-- `processFrameWithCV`: for AVC, decode the AVC packet (error on
failure); for NAL-unit packets, extract → transform → repack →
reserialize the packet; any other codec or packet type returns the
original bytes. -/
def processFrameWithCV (frameData : List Nat) (codecID : Nat) :
    Except String (List Nat) :=
  if codecID = CodecIDAVC then
    match decodeAVCVideoPacket frameData with
    | none => .error "failed to decode AVC video packet"
    | some avc =>
      if avc.avcPacketType = AVCPacketTypeNALU then
        match extractFrameFromNALU avc.data with
        | .error e => .error e
        | .ok frame =>
          match applyComputerVision frame with
          | .error e => .error e
          | .ok processedFrame =>
            match packFrameToNALU processedFrame with
            | .error e => .error e
            | .ok processedNALU =>
              .ok (encodeAVCVideoPacket { avc with data := processedNALU })
      else .ok frameData
  else .ok frameData

/-! ## File and session state -/

/-- An open (or closed) output file: its byte contents, the write
offset, and whether it has been closed.  `os.OpenFile` with
`O_CREATE|O_WRONLY` starts writing at offset 0 without truncating. -/
structure FileHandle where
  content : List Nat
  pos : Nat
  closed : Bool
deriving DecidableEq, Repr

/-- Overwrite `content` at offset `pos` with `bs` (zero-padding a gap,
keeping any tail beyond the written range). -/
def writeAt (content : List Nat) (pos : Nat) (bs : List Nat) : List Nat :=
  (content.take pos ++ List.replicate (pos - content.length) 0) ++ bs ++
    content.drop (pos + bs.length)

/-- A write through the handle: fails (Go: returns an error) when the
file has been closed, otherwise overwrites at the current offset and
advances it. -/
def fileWrite (f : FileHandle) (bs : List Nat) : Except String FileHandle :=
  if f.closed then .error "file already closed"
  else .ok ⟨writeAt f.content f.pos bs, f.pos + bs.length, false⟩

/-- `os.Fileclose` model: marks the handle closed; closing an
already-closed handle returns an (ignored) error and changes nothing. -/
def closeHandle (f : FileHandle) : FileHandle :=
  { f with closed := true }

/-- Go `os` open flag `O_WRONLY` (Linux). -/
def O_WRONLY : Nat := 1

/-- Go `os` open flag `O_CREATE` (Linux `O_CREAT`). -/
def O_CREATE : Nat := 64

/-- Go `os` open flag `O_TRUNC` (Linux), bit 9. -/
def O_TRUNC : Nat := 512

/-- The flags the source passes to `os.OpenFile`:
`os.O_CREATE|os.O_WRONLY`. -/
def openFlags : Nat := Nat.lor O_CREATE O_WRONLY

/-- `os.OpenFile(_, flags, 0666)` against an optional pre-existing
file: creates an empty file when none exists; truncates iff the
`O_TRUNC` bit (bit 9) is set; the write offset starts at 0. -/
def openFile (flags : Nat) (existing : Option (List Nat)) : FileHandle :=
  match existing with
  | none => ⟨[], 0, false⟩
  | some c => ⟨if Nat.testBit flags 9 then [] else c, 0, false⟩

/-- The `Handler` struct: the owned `*os.File` and the `*flv.Encoder`
(the encoder writes through the same file; `some ()` means a non-nil
encoder has been initialized). -/
structure Handler where
  flvFile : Option FileHandle
  flvEnc : Option Unit
deriving DecidableEq, Repr

/-- A handler as freshly allocated for a connection (both fields nil). -/
def initHandler : Handler := ⟨none, none⟩

/-- The observable result of one callback invocation: a `nil` error
return, a non-nil error return, or a runtime fault (panic, e.g. a nil
pointer dereference) — a fault is not an error return. -/
inductive Outcome where
  | ok
  | err (msg : String)
  | fault (msg : String)
deriving DecidableEq, Repr

/-- The shared `h.flvEnc.Encode(&flvtag.FlvTag{...})` step of the data
callbacks, with the write error only logged: a nil encoder faults
(nil-pointer dereference inside `Encode`); a failed write is logged
and the callback still returns `nil`. -/
def encodeTagLogged (h : Handler) (tag : FlvTag) : Handler × Outcome :=
  match h.flvEnc with
  | none => (h, .fault "invalid memory address or nil pointer dereference")
  | some _ =>
    match h.flvFile with
    | none => (h, .fault "invalid memory address or nil pointer dereference")
    | some f =>
      match fileWrite f (encodeFlvTag tag) with
      | .error _ => (h, .ok)
      | .ok f2 => ({ h with flvFile := some f2 }, .ok)

/-! ## Session callbacks -/

/-- `OnPublish`: resolve the name (the resolved path is
`resolvePath name`), open the target with `O_CREATE|O_WRONLY` (the
`existing` argument is the file previously at that path, if any),
store the handle, then initialize the FLV encoder, which writes the
FLV header; on encoder failure the file is closed (but stays in
`h.flvFile`) and the error is returned. -/
def onPublish (h : Handler) (name : List Char) (existing : Option (List Nat)) :
    Handler × Outcome :=
  let _ := resolvePath name
  let f := openFile openFlags existing
  let h1 := { h with flvFile := some f }
  match fileWrite f flvHeader with
  | .error e => ({ h1 with flvFile := some (closeHandle f) }, .err e)
  | .ok f2 => ({ h1 with flvFile := some f2, flvEnc := some () }, .ok)

/-- `OnSetDataFrame`: a script-data decode failure is logged and the
callback returns `nil` without writing; on success the re-encoded
script tag is appended (write failures only logged). -/
def onSetDataFrame (h : Handler) (timestamp : Nat) (payload : List Nat) :
    Handler × Outcome :=
  match decodeScriptData payload with
  | none => (h, .ok)
  | some script =>
    encodeTagLogged h ⟨TagTypeScriptData, timestamp, encodeScriptData script⟩

/-- `OnAudio`: a decode failure is returned (fatal to the call); on
success the re-encoded audio tag is appended (write failures only
logged). -/
def onAudio (h : Handler) (timestamp : Nat) (payload : List Nat) :
    Handler × Outcome :=
  match decodeAudioData payload with
  | none => (h, .err "failed to decode audio data")
  | some audio =>
    encodeTagLogged h ⟨TagTypeAudio, timestamp, encodeAudioData audio⟩

/-- The body bytes `OnVideo` writes: key frames go through
`processFrameWithCV`, whose failure is logged and the original bytes
kept; other frames pass through unchanged. -/
def transformedBody (video : VideoData) : List Nat :=
  if video.frameType = FrameTypeKeyFrame then
    match processFrameWithCV video.data video.codecID with
    | .error _ => video.data
    | .ok processedData => processedData
  else video.data

/-- `OnVideo`: a decode failure is returned (fatal to the call); key
frames route through the transform stage fail-open; the re-encoded
video tag is appended (write failures only logged). -/
def onVideo (h : Handler) (timestamp : Nat) (payload : List Nat) :
    Handler × Outcome :=
  match decodeVideoData payload with
  | none => (h, .err "failed to decode video data")
  | some video =>
    encodeTagLogged h
      ⟨TagTypeVideo, timestamp,
        encodeVideoData { video with data := transformedBody video }⟩

/-- `OnClose`: closes the owned file handle if present; the `Close`
error is discarded; never faults. -/
def onClose (h : Handler) : Handler × Outcome :=
  match h.flvFile with
  | none => (h, .ok)
  | some f => ({ h with flvFile := some (closeHandle f) }, .ok)

/-! ## Submission sequences -/

/-- One audio or video submission. -/
inductive AVEvent where
  | audio (timestamp : Nat) (payload : List Nat)
  | video (timestamp : Nat) (payload : List Nat)
deriving DecidableEq, Repr

/-- Dispatch one submission to its callback. -/
def runEvent (h : Handler) : AVEvent → Handler × Outcome
  | .audio ts p => onAudio h ts p
  | .video ts p => onVideo h ts p

/-- Run a submission sequence, collecting each callback's outcome. -/
def runEvents (h : Handler) : List AVEvent → Handler × List Outcome
  | [] => (h, [])
  | e :: es =>
    let r := runEvent h e
    let rs := runEvents r.1 es
    (rs.1, r.2 :: rs.2)

/-- The payload decodes, so the callback will append a tag. -/
def decodableEvent : AVEvent → Bool
  | .audio _ p => (decodeAudioData p).isSome
  | .video _ p => (decodeVideoData p).isSome

/-- The framed tag bytes the pipeline appends for one submission. -/
def eventTagBytes : AVEvent → List Nat
  | .audio ts p =>
    match decodeAudioData p with
    | some audio => encodeFlvTag ⟨TagTypeAudio, ts, encodeAudioData audio⟩
    | none => []
  | .video ts p =>
    match decodeVideoData p with
    | some video =>
      encodeFlvTag
        ⟨TagTypeVideo, ts, encodeVideoData { video with data := transformedBody video }⟩
    | none => []

/-- `OnVideo` with the transform stage disabled (spec §4.3 / §8: the
comparison point for the fail-open contract): identical except that
key frames are not routed through `processFrameWithCV`. -/
def onVideoStageDisabled (h : Handler) (timestamp : Nat) (payload : List Nat) :
    Handler × Outcome :=
  match decodeVideoData payload with
  | none => (h, .err "failed to decode video data")
  | some video =>
    encodeTagLogged h ⟨TagTypeVideo, timestamp, encodeVideoData video⟩

/-! ## Helper lemmas -/

/-- Writing at the end of the current contents appends. -/
theorem writeAt_length (c bs : List Nat) : writeAt c c.length bs = c ++ bs := by
  simp [writeAt]

/-- An open handle positioned at its end accepts a write by appending. -/
theorem fileWrite_append (c bs : List Nat) :
    fileWrite ⟨c, c.length, false⟩ bs = .ok ⟨c ++ bs, (c ++ bs).length, false⟩ := by
  simp [fileWrite, writeAt_length]

/-- `encodeTagLogged` on a healthy session state appends the framed
tag and succeeds. -/
theorem encodeTagLogged_append (c : List Nat) (tag : FlvTag) :
    encodeTagLogged ⟨some ⟨c, c.length, false⟩, some ()⟩ tag =
      (⟨some ⟨c ++ encodeFlvTag tag, (c ++ encodeFlvTag tag).length, false⟩, some ()⟩, .ok) := by
  simp [encodeTagLogged, fileWrite_append]

/-- The outcome of the encode-and-log step is never an error return. -/
theorem encodeTagLogged_ne_err (h : Handler) (tag : FlvTag) (m : String) :
    (encodeTagLogged h tag).2 ≠ .err m := by
  unfold encodeTagLogged
  split
  · simp
  · split
    · simp
    · split <;> simp

/-! ## Claims -/

/-- C9: `OnClose` is idempotent and never faults in any session state;
it returns without error, a second close changes nothing, a session
without a file handle is left untouched, and an owned handle is
closed when present. -/
theorem onClose_idempotent_never_faults (h : Handler) :
    (onClose h).2 = .ok ∧
    onClose (onClose h).1 = onClose h ∧
    (h.flvFile = none → (onClose h).1 = h) ∧
    ∀ f, h.flvFile = some f → (onClose h).1.flvFile = some (closeHandle f) := by
  rcases h with ⟨hf, he⟩
  cases hf <;> simp [onClose, closeHandle]

/-- Witness for C9 at concrete states: closing a never-published
session (no handle) is a no-op, and a present handle gets closed. -/
theorem onClose_idempotent_never_faults_witness :
    (onClose initHandler).1 = initHandler ∧
    (onClose ⟨some ⟨[], 0, false⟩, none⟩).1.flvFile = some ⟨[], 0, true⟩ :=
  ⟨(onClose_idempotent_never_faults initHandler).2.2.1 rfl,
   (onClose_idempotent_never_faults ⟨some ⟨[], 0, false⟩, none⟩).2.2.2 ⟨[], 0, false⟩ rfl⟩

/-- C10: invoking the data callbacks on a session that never published
(nil encoder) faults with a nil-pointer dereference instead of
returning an error: a valid empty script payload, a one-byte audio
payload and a one-byte video payload all decode, reach
`h.flvEnc.Encode` and fault. -/
theorem data_callbacks_nil_encoder_fault :
    onSetDataFrame initHandler 0 [] =
      (initHandler, .fault "invalid memory address or nil pointer dereference") ∧
    onAudio initHandler 0 [0] =
      (initHandler, .fault "invalid memory address or nil pointer dereference") ∧
    onVideo initHandler 0 [0] =
      (initHandler, .fault "invalid memory address or nil pointer dereference") ∧
    ∀ m, Outcome.fault "invalid memory address or nil pointer dereference" ≠ .err m := by
  refine ⟨rfl, rfl, rfl, fun m => by simp⟩

/-- C8: an audio or video decode failure is returned by the callback
(fatal to the call), while a successful decode followed by a failed
container write (closed sink) is only logged: the callback returns
success and the session state is unchanged. -/
theorem decode_fatal_write_soft :
    (∀ h ts p, decodeAudioData p = none →
       onAudio h ts p = (h, .err "failed to decode audio data")) ∧
    (∀ h ts p, decodeVideoData p = none →
       onVideo h ts p = (h, .err "failed to decode video data")) ∧
    (∀ c pos ts p, (decodeAudioData p).isSome = true →
       onAudio ⟨some ⟨c, pos, true⟩, some ()⟩ ts p = (⟨some ⟨c, pos, true⟩, some ()⟩, .ok)) ∧
    (∀ c pos ts p, (decodeVideoData p).isSome = true →
       onVideo ⟨some ⟨c, pos, true⟩, some ()⟩ ts p = (⟨some ⟨c, pos, true⟩, some ()⟩, .ok)) := by
  refine ⟨fun h ts p hd => by simp [onAudio, hd],
          fun h ts p hd => by simp [onVideo, hd],
          fun c pos ts p hd => ?_,
          fun c pos ts p hd => ?_⟩
  · rcases ha : decodeAudioData p with _ | a
    · rw [ha] at hd; simp at hd
    · simp [onAudio, ha, encodeTagLogged, fileWrite]
  · rcases hv : decodeVideoData p with _ | v
    · rw [hv] at hd; simp at hd
    · simp [onVideo, hv, encodeTagLogged, fileWrite]

/-- Witness for C8: an empty audio payload is rejected with the error,
and a decodable audio tag against a closed sink still returns success. -/
theorem decode_fatal_write_soft_witness :
    onAudio initHandler 0 [] = (initHandler, .err "failed to decode audio data") ∧
    onAudio ⟨some ⟨[], 0, true⟩, some ()⟩ 0 [0] = (⟨some ⟨[], 0, true⟩, some ()⟩, .ok) ∧
    onVideo ⟨some ⟨[], 0, true⟩, some ()⟩ 0 [0] = (⟨some ⟨[], 0, true⟩, some ()⟩, .ok) :=
  ⟨decode_fatal_write_soft.1 initHandler 0 [] rfl,
   decode_fatal_write_soft.2.2.1 [] 0 0 [0] rfl,
   decode_fatal_write_soft.2.2.2 [] 0 0 [0] rfl⟩

/-- C2: when the transform stage errors on a key frame, `OnVideo`
behaves exactly as with the stage disabled — the written tag is
byte-identical (the whole resulting state is equal) — and no error is
returned from `OnVideo`. -/
theorem transform_error_fail_open (h : Handler) (ts : Nat) (p : List Nat)
    (video : VideoData) (msg : String)
    (hdec : decodeVideoData p = some video)
    (hkey : video.frameType = FrameTypeKeyFrame)
    (herr : processFrameWithCV video.data video.codecID = .error msg) :
    onVideo h ts p = onVideoStageDisabled h ts p ∧
    ∀ m, (onVideo h ts p).2 ≠ .err m := by
  have hbody : transformedBody video = video.data := by
    simp [transformedBody, hkey, herr]
  constructor
  · simp [onVideo, onVideoStageDisabled, hdec, hbody]
  · intro m
    simp [onVideo, hdec]
    exact encodeTagLogged_ne_err _ _ m

/-- Witness for C2: a key-frame AVC tag whose body is too short for an
AVC packet makes the stage error; the tag written equals the
stage-disabled one. -/
theorem transform_error_fail_open_witness :
    onVideo ⟨some ⟨[], 0, false⟩, some ()⟩ 0 [23, 1] =
      onVideoStageDisabled ⟨some ⟨[], 0, false⟩, some ()⟩ 0 [23, 1] :=
  (transform_error_fail_open ⟨some ⟨[], 0, false⟩, some ()⟩ 0 [23, 1] ⟨1, 7, [1]⟩
    "failed to decode AVC video packet" rfl rfl rfl).1

/-- C5: non-key frames bypass the transform stage, and key frames that
are not AVC or whose AVC packet is not NAL-unit data pass through
byte-identically: the stage returns the input bytes unchanged and
`OnVideo` coincides with the stage-disabled pipeline. -/
theorem non_nalu_passthrough (h : Handler) (ts : Nat) (p : List Nat)
    (video : VideoData) (hdec : decodeVideoData p = some video) :
    (video.frameType ≠ FrameTypeKeyFrame →
       transformedBody video = video.data ∧
       onVideo h ts p = onVideoStageDisabled h ts p) ∧
    (video.codecID ≠ CodecIDAVC →
       processFrameWithCV video.data video.codecID = .ok video.data ∧
       onVideo h ts p = onVideoStageDisabled h ts p) ∧
    (∀ avc, decodeAVCVideoPacket video.data = some avc →
       avc.avcPacketType ≠ AVCPacketTypeNALU →
       processFrameWithCV video.data video.codecID = .ok video.data ∧
       onVideo h ts p = onVideoStageDisabled h ts p) := by
  have heq : transformedBody video = video.data →
      onVideo h ts p = onVideoStageDisabled h ts p := by
    intro hbody
    simp [onVideo, onVideoStageDisabled, hdec, hbody]
  refine ⟨fun hnk => ?_, fun hcodec => ?_, fun avc havc hpt => ?_⟩
  · have hbody : transformedBody video = video.data := by
      simp [transformedBody, hnk]
    exact ⟨hbody, heq hbody⟩
  · have hcv : processFrameWithCV video.data video.codecID = .ok video.data := by
      simp [processFrameWithCV, hcodec]
    have hbody : transformedBody video = video.data := by
      unfold transformedBody
      split <;> simp [hcv]
    exact ⟨hcv, heq hbody⟩
  · have hcv : processFrameWithCV video.data video.codecID = .ok video.data := by
      by_cases hcodec : video.codecID = CodecIDAVC
      · simp [processFrameWithCV, hcodec, havc, hpt]
      · simp [processFrameWithCV, hcodec]
    have hbody : transformedBody video = video.data := by
      unfold transformedBody
      split <;> simp [hcv]
    exact ⟨hcv, heq hbody⟩

/-- Witness for C5: an inter frame (0x27) bypasses the stage, and a
key-frame AVC sequence header (packet type 0) passes through
unchanged. -/
theorem non_nalu_passthrough_witness :
    onVideo ⟨some ⟨[], 0, false⟩, some ()⟩ 0 [39, 5] =
      onVideoStageDisabled ⟨some ⟨[], 0, false⟩, some ()⟩ 0 [39, 5] ∧
    processFrameWithCV [0, 0, 0, 0] CodecIDAVC = .ok [0, 0, 0, 0] :=
  ⟨((non_nalu_passthrough ⟨some ⟨[], 0, false⟩, some ()⟩ 0 [39, 5] ⟨2, 7, [5]⟩ rfl).1
      (by decide)).2,
   ((non_nalu_passthrough ⟨some ⟨[], 0, false⟩, some ()⟩ 0 [23, 0, 0, 0, 0] ⟨1, 7, [0, 0, 0, 0]⟩
      rfl).2.2 ⟨0, [0, 0, 0], []⟩ rfl (by decide)).1⟩

/-- C7: a script-data payload that fails to decode is dropped: the
callback returns success with the session state unchanged, so any
later audio or video tag behaves exactly as if the failed script tag
had never arrived. -/
theorem script_decode_failure_nonfatal (h : Handler) (ts : Nat) (p : List Nat)
    (hfail : decodeScriptData p = none) :
    onSetDataFrame h ts p = (h, .ok) ∧
    (∀ ts2 p2, onAudio (onSetDataFrame h ts p).1 ts2 p2 = onAudio h ts2 p2) ∧
    (∀ ts2 p2, onVideo (onSetDataFrame h ts p).1 ts2 p2 = onVideo h ts2 p2) ∧
    (∀ ts2 p2, onSetDataFrame (onSetDataFrame h ts p).1 ts2 p2 = onSetDataFrame h ts2 p2) := by
  have hstep : onSetDataFrame h ts p = (h, .ok) := by
    simp [onSetDataFrame, hfail]
  exact ⟨hstep, fun ts2 p2 => by rw [hstep], fun ts2 p2 => by rw [hstep],
         fun ts2 p2 => by rw [hstep]⟩

/-- Witness for C7: payload `[3]` (a bare object marker) fails to
decode; the session still appends a following audio tag normally. -/
theorem script_decode_failure_nonfatal_witness :
    onSetDataFrame ⟨some ⟨[], 0, false⟩, some ()⟩ 0 [3] = (⟨some ⟨[], 0, false⟩, some ()⟩, .ok) ∧
    onAudio (onSetDataFrame ⟨some ⟨[], 0, false⟩, some ()⟩ 0 [3]).1 1 [0] =
      onAudio ⟨some ⟨[], 0, false⟩, some ()⟩ 1 [0] :=
  ⟨(script_decode_failure_nonfatal ⟨some ⟨[], 0, false⟩, some ()⟩ 0 [3] rfl).1,
   (script_decode_failure_nonfatal ⟨some ⟨[], 0, false⟩, some ()⟩ 0 [3] rfl).2.1 1 [0]⟩

/-- Counterexample to C4 as stated: publishing over a 20-byte
pre-existing file does not discard its contents — after the publish
the file still carries the old tail bytes beyond the newly written
13-byte FLV header, so the prior contents were not discarded. -/
theorem publish_no_truncate_counterexample :
    (onPublish initHandler ['s'] (some (List.replicate 20 7))).2 = .ok ∧
    (onPublish initHandler ['s'] (some (List.replicate 20 7))).1.flvFile =
      some ⟨flvHeader ++ List.replicate 7 7, 13, false⟩ ∧
    flvHeader ++ List.replicate 7 7 ≠ flvHeader := by
  refine ⟨rfl, by decide, by decide⟩

/-- C4 amended: `OnPublish` opens the target with `O_CREATE|O_WRONLY`
— create-or-open-for-writing, without `O_TRUNC` — so writing starts at
offset 0 over the old bytes: after a successful publish the file holds
the FLV header followed by whatever pre-existing bytes lie beyond it
(nothing, for a fresh or shorter file); prior contents are overwritten
in place, not discarded up front. -/
theorem publish_opens_create_no_truncate :
    Nat.testBit openFlags 9 = false ∧
    (∀ nm, onPublish initHandler nm none =
       (⟨some ⟨flvHeader, flvHeader.length, false⟩, some ()⟩, .ok)) ∧
    (∀ nm ex, onPublish initHandler nm (some ex) =
       (⟨some ⟨flvHeader ++ ex.drop flvHeader.length, flvHeader.length, false⟩, some ()⟩, .ok)) := by
  have hbit : Nat.testBit openFlags 9 = false := by decide
  refine ⟨hbit, fun nm => ?_, fun nm ex => ?_⟩
  · simp [onPublish, openFile, fileWrite, writeAt, flvHeader]
  · simp [onPublish, openFile, hbit, fileWrite, writeAt, flvHeader]

/-- One decodable submission on a healthy session appends exactly its
framed tag bytes and returns success. -/
theorem runEvent_good (c : List Nat) (e : AVEvent) (hd : decodableEvent e = true) :
    runEvent ⟨some ⟨c, c.length, false⟩, some ()⟩ e =
      (⟨some ⟨c ++ eventTagBytes e, (c ++ eventTagBytes e).length, false⟩, some ()⟩, .ok) := by
  cases e with
  | audio ts p =>
    rcases ha : decodeAudioData p with _ | a
    · simp [decodableEvent, ha] at hd
    · simp [runEvent, onAudio, ha, eventTagBytes, encodeTagLogged_append]
  | video ts p =>
    rcases hv : decodeVideoData p with _ | v
    · simp [decodableEvent, hv] at hd
    · simp [runEvent, onVideo, hv, eventTagBytes, encodeTagLogged_append]

/-- A decodable submission sequence on a healthy session appends the
per-event framed tags in submission order, one per callback, each
callback returning success. -/
theorem runEvents_append (es : List AVEvent) :
    ∀ c, (∀ e ∈ es, decodableEvent e = true) →
      runEvents ⟨some ⟨c, c.length, false⟩, some ()⟩ es =
        (⟨some ⟨c ++ (es.map eventTagBytes).flatten,
               (c ++ (es.map eventTagBytes).flatten).length, false⟩, some ()⟩,
         List.replicate es.length .ok) := by
  induction es with
  | nil => intro c _; simp [runEvents]
  | cons e es ih =>
    intro c hdec
    have he : decodableEvent e = true := hdec e (List.mem_cons_self e es)
    have hes : ∀ e2 ∈ es, decodableEvent e2 = true :=
      fun e2 h2 => hdec e2 (List.mem_cons_of_mem e h2)
    simp only [runEvents, runEvent_good c e he, ih (c ++ eventTagBytes e) hes,
      List.map_cons, List.flatten_cons, List.length_cons, List.replicate_succ,
      List.append_assoc]

/-- C3: after a successful publish, any interleaving of audio and
video submissions (whatever their timestamps) is written to the
container in exactly submission order: the final file is the FLV
header followed by the per-event framed tags in order, and every
callback appended its one tag and returned success. -/
theorem tags_written_in_submission_order (nm : List Char) (es : List AVEvent)
    (hdec : ∀ e ∈ es, decodableEvent e = true) :
    runEvents (onPublish initHandler nm none).1 es =
      (⟨some ⟨flvHeader ++ (es.map eventTagBytes).flatten,
             (flvHeader ++ (es.map eventTagBytes).flatten).length, false⟩, some ()⟩,
       List.replicate es.length .ok) := by
  have hpub : (onPublish initHandler nm none).1 =
      ⟨some ⟨flvHeader, flvHeader.length, false⟩, some ()⟩ := by
    rw [(publish_opens_create_no_truncate.2.1 nm :)]
  rw [hpub]
  exact runEvents_append es flvHeader hdec

/-- Witness for C3: a video tag with timestamp 5 submitted before an
audio tag with timestamp 2 is written first, in submission order. -/
theorem tags_written_in_submission_order_witness :
    runEvents (onPublish initHandler ['s'] none).1 [.video 5 [23, 1], .audio 2 [47, 9]] =
      (⟨some ⟨flvHeader ++
              (encodeFlvTag ⟨TagTypeVideo, 5, [23, 1]⟩ ++ encodeFlvTag ⟨TagTypeAudio, 2, [47, 9]⟩),
              47, false⟩, some ()⟩, [.ok, .ok]) := by
  have h := tags_written_in_submission_order ['s'] [.video 5 [23, 1], .audio 2 [47, 9]]
    (by decide)
  rw [h]
  decide

/-! ## Codec round-trip lemmas -/

/-- Splitting off the head of a genuine byte sequence. -/
theorem okBytes_cons {b : Nat} {bs : List Nat} (h : okBytes (b :: bs) = true) :
    b < 256 ∧ okBytes bs = true := by
  simpa [okBytes] using h

/-- A suffix of a genuine byte sequence is one. -/
theorem okBytes_append_right {xs ys : List Nat} (h : okBytes (xs ++ ys) = true) :
    okBytes ys = true := by
  simp only [okBytes, List.all_append, Bool.and_eq_true] at h
  exact h.2

/-- `readN` splits its input exactly. -/
theorem readN_eq {n : Nat} {bs xs rest : List Nat} (h : readN n bs = some (xs, rest)) :
    bs = xs ++ rest ∧ xs.length = n := by
  unfold readN at h
  split at h
  case isTrue hle =>
    simp only [Option.some.injEq, Prod.mk.injEq] at h
    obtain ⟨h1, h2⟩ := h
    subst h1; subst h2
    exact ⟨(List.take_append_drop n bs).symm, by simp [List.length_take, Nat.min_eq_left hle]⟩
  case isFalse => simp at h

/-- A parsed AMF0 string sits after its two length bytes. -/
theorem parseStr_eq {bs k rest : List Nat} (h : parseStr bs = some (k, rest)) :
    ∃ b1 b2, bs = b1 :: b2 :: (k ++ rest) ∧ k.length = b1 * 256 + b2 := by
  cases bs with
  | nil => simp [parseStr] at h
  | cons b1 bs1 =>
    cases bs1 with
    | nil => simp [parseStr] at h
    | cons b2 r =>
      obtain ⟨hr, hl⟩ := readN_eq (h : readN (b1 * 256 + b2) r = some (k, rest))
      exact ⟨b1, b2, by rw [hr], hl⟩

/-- Serializing a parsed string reproduces its length bytes. -/
theorem serStr_eq {k : List Nat} {b1 b2 : Nat} (hl : k.length = b1 * 256 + b2)
    (h1 : b1 < 256) (h2 : b2 < 256) : serStr k = b1 :: b2 :: k := by
  have e1 : (b1 * 256 + b2) / 256 % 256 = b1 := by omega
  have e2 : (b1 * 256 + b2) % 256 = b2 := by omega
  simp [serStr, u16be, hl, e1, e2]

/-- Soundness of the AMF0 parser: serializing a parse result
reproduces the consumed bytes. -/
theorem parseA_sound :
    ∀ n mode bs v rest, okBytes bs = true → parseA n mode bs = some (v, rest) →
      serVal v ++ rest = bs := by
  intro n
  induction n with
  | zero => intro mode bs v rest _ h; simp [parseA] at h
  | succ n ih =>
    intro mode bs v rest hok h
    cases mode with
    | true =>
      cases bs with
      | nil => simp [parseA] at h
      | cons m bs1 =>
        obtain ⟨hmlt, hok1⟩ := okBytes_cons hok
        simp only [parseA] at h
        split_ifs at h with h0 h1 h2 h5 h8
        · subst h0
          rcases hr : readN 8 bs1 with _ | ⟨d, rest1⟩ <;> simp only [hr] at h
          · simp at h
          · simp only [Option.some.injEq, Prod.mk.injEq] at h
            obtain ⟨hv, hrest⟩ := h
            subst hv; subst hrest
            obtain ⟨hb, _⟩ := readN_eq hr
            simp [serVal, hb]
        · subst h1
          cases bs1 with
          | nil => simp at h
          | cons b rest1 =>
            simp only [Option.some.injEq, Prod.mk.injEq] at h
            obtain ⟨hv, hrest⟩ := h
            subst hv; subst hrest
            simp [serVal]
        · subst h2
          rcases hs : parseStr bs1 with _ | ⟨s, rest1⟩ <;> simp only [hs] at h
          · simp at h
          · simp only [Option.some.injEq, Prod.mk.injEq] at h
            obtain ⟨hv, hrest⟩ := h
            subst hv; subst hrest
            obtain ⟨b1, b2, hbs, hlen⟩ := parseStr_eq hs
            have hb1 : b1 < 256 := ((okBytes_cons (hbs ▸ hok1)).1)
            have hb2 : b2 < 256 := (okBytes_cons (okBytes_cons (hbs ▸ hok1)).2).1
            simp [serVal, serStr_eq hlen hb1 hb2, hbs]
        · subst h5
          simp only [Option.some.injEq, Prod.mk.injEq] at h
          obtain ⟨hv, hrest⟩ := h
          subst hv; subst hrest
          simp [serVal]
        · subst h8
          rcases hr : readN 4 bs1 with _ | ⟨cnt, rest1⟩ <;> simp only [hr] at h
          · simp at h
          · rcases hp : parseA n false rest1 with _ | ⟨es, rest2⟩ <;> simp only [hp] at h
            · simp at h
            · simp only [Option.some.injEq, Prod.mk.injEq] at h
              obtain ⟨hv, hrest⟩ := h
              subst hv; subst hrest
              obtain ⟨hb, _⟩ := readN_eq hr
              have hok2 : okBytes rest1 = true := okBytes_append_right (hb ▸ hok1)
              have hes := ih false rest1 es rest2 hok2 hp
              simp [serVal, hb, ← hes, List.append_assoc]
    | false =>
      simp only [parseA] at h
      split_ifs at h with ht
      · simp only [Option.some.injEq, Prod.mk.injEq] at h
        obtain ⟨hv, hrest⟩ := h
        subst hv; subst hrest
        have : serVal Amf0.enil = List.take 3 bs := ht.symm
        rw [this]
        exact List.take_append_drop 3 bs
      · rcases hs : parseStr bs with _ | ⟨k, rest1⟩ <;> simp only [hs] at h
        · simp at h
        · split_ifs at h with hk
          rcases hv1 : parseA n true rest1 with _ | ⟨v1, rest2⟩ <;> simp only [hv1] at h
          · simp at h
          · rcases he : parseA n false rest2 with _ | ⟨es, rest3⟩ <;> simp only [he] at h
            · simp at h
            · simp only [Option.some.injEq, Prod.mk.injEq] at h
              obtain ⟨hveq, hrest⟩ := h
              subst hveq; subst hrest
              obtain ⟨b1, b2, hbs, hlen⟩ := parseStr_eq hs
              have hok0 : okBytes (k ++ rest1) = true :=
                (okBytes_cons (okBytes_cons (hbs ▸ hok)).2).2
              have hok1 : okBytes rest1 = true := okBytes_append_right hok0
              have hb1 : b1 < 256 := (okBytes_cons (hbs ▸ hok)).1
              have hb2 : b2 < 256 := (okBytes_cons (okBytes_cons (hbs ▸ hok)).2).1
              have h1 := ih true rest1 v1 rest2 hok1 hv1
              have hok2 : okBytes rest2 = true := okBytes_append_right (h1 ▸ hok1)
              have h2 := ih false rest2 es rest3 hok2 he
              simp only [serVal, hbs, serStr_eq hlen hb1 hb2, List.append_assoc, h2, h1]
              simp [List.cons_append]

/-- Soundness of the top-level script-data loop. -/
theorem parseTop_sound :
    ∀ n bs es, okBytes bs = true → parseTop n bs = some es → serTop es = bs := by
  intro n
  induction n with
  | zero =>
    intro bs es hok h
    cases bs with
    | nil =>
      simp only [parseTop, Option.some.injEq] at h
      subst h; rfl
    | cons m bs1 => simp [parseTop] at h
  | succ n ih =>
    intro bs es hok h
    cases bs with
    | nil =>
      simp only [parseTop, Option.some.injEq] at h
      subst h; rfl
    | cons m bs1 =>
      simp only [parseTop] at h
      split_ifs at h with hm
      · subst hm
        rcases hs : parseStr bs1 with _ | ⟨k, rest1⟩ <;> simp only [hs] at h
        · simp at h
        · rcases hv : parseA n true rest1 with _ | ⟨v, rest2⟩ <;> simp only [hv] at h
          · simp at h
          · rcases hp : parseTop n rest2 with _ | ⟨es1⟩ <;> simp only [hp] at h
            · simp at h
            · simp only [Option.some.injEq] at h
              subst h
              obtain ⟨hmlt, hok1⟩ := okBytes_cons hok
              obtain ⟨b1, b2, hbs, hlen⟩ := parseStr_eq hs
              have hok0 : okBytes (k ++ rest1) = true :=
                (okBytes_cons (okBytes_cons (hbs ▸ hok1)).2).2
              have hokr : okBytes rest1 = true := okBytes_append_right hok0
              have hb1 : b1 < 256 := (okBytes_cons (hbs ▸ hok1)).1
              have hb2 : b2 < 256 := (okBytes_cons (okBytes_cons (hbs ▸ hok1)).2).1
              have h1 := parseA_sound n true rest1 v rest2 hokr hv
              have hok2 : okBytes rest2 = true := okBytes_append_right (h1 ▸ hokr)
              have h2 := ih rest2 es1 hok2 hp
              simp only [serTop, hbs, serStr_eq hlen hb1 hb2, h2]
              simp [List.append_assoc, h1]

/-- Round trip for the script-data codec. -/
theorem script_roundtrip {bs : List Nat} {sd : ScriptData}
    (hok : okBytes bs = true) (h : decodeScriptData bs = some sd) :
    encodeScriptData sd = bs := by
  unfold decodeScriptData at h
  rcases hp : parseTop (bs.length + 1) bs with _ | es <;> simp only [hp] at h
  · simp at h
  · simp only [Option.map_some', Option.some.injEq] at h
    subst h
    exact parseTop_sound (bs.length + 1) bs es hok hp

/-- C6: re-encoding a decoded tag payload reproduces the original
bytes, for script-data, audio, and (non-transformed) video payloads. -/
theorem encode_decode_roundtrip :
    (∀ bs sd, okBytes bs = true → decodeScriptData bs = some sd →
       encodeScriptData sd = bs) ∧
    (∀ bs a, decodeAudioData bs = some a → encodeAudioData a = bs) ∧
    (∀ bs v, decodeVideoData bs = some v → encodeVideoData v = bs) := by
  refine ⟨fun bs sd hok h => script_roundtrip hok h, fun bs a h => ?_, fun bs v h => ?_⟩
  · cases bs with
    | nil => simp [decodeAudioData] at h
    | cons b rest =>
      have hb : b / 16 * 16 + b / 4 % 4 * 4 + b / 2 % 2 * 2 + b % 2 = b := by omega
      simp only [decodeAudioData] at h
      split_ifs at h with hf
      · cases rest with
        | nil => simp at h
        | cons pt rest2 =>
          simp only [Option.some.injEq] at h
          subst h
          simp [encodeAudioData, hb]
      · simp only [Option.some.injEq] at h
        subst h
        simp [encodeAudioData, hb]
  · cases bs with
    | nil => simp [decodeVideoData] at h
    | cons b rest =>
      simp only [decodeVideoData, Option.some.injEq] at h
      subst h
      have hb : b / 16 * 16 + b % 16 = b := by omega
      simp [encodeVideoData, hb]

/-- Witness for C6: concrete script, audio, and video payloads decode
and re-encode to the original bytes. -/
theorem encode_decode_roundtrip_witness :
    encodeScriptData ⟨[([97], .nullV)]⟩ = [2, 0, 1, 97, 5] ∧
    encodeAudioData ⟨10, 3, 1, 1, some 1, [2, 3]⟩ = [175, 1, 2, 3] ∧
    encodeVideoData ⟨1, 7, [9]⟩ = [23, 9] :=
  ⟨encode_decode_roundtrip.1 [2, 0, 1, 97, 5] ⟨[([97], .nullV)]⟩ (by decide) (by decide),
   encode_decode_roundtrip.2.1 [175, 1, 2, 3] ⟨10, 3, 1, 1, some 1, [2, 3]⟩ (by decide),
   encode_decode_roundtrip.2.2 [23, 9] ⟨1, 7, [9]⟩ (by decide)⟩

/-! ## Path resolver lemmas -/

/-- A normal path component: not empty, not `.`, not `..`. -/
def GoodC (c : List Char) : Prop := c ≠ [] ∧ c ≠ ['.'] ∧ c ≠ ['.', '.']

/-- Splitting always yields at least one component. -/
theorem splitComps_ne_nil (s : List Char) : splitComps s ≠ [] := by
  cases s with
  | nil => simp [splitComps]
  | cons c rest =>
    simp only [splitComps]
    split_ifs
    · simp
    · rcases hsp : splitComps rest with _ | ⟨comp, comps⟩ <;> simp

/-- Components never contain the separator. -/
theorem splitComps_no_slash (s : List Char) : ∀ c ∈ splitComps s, '/' ∉ c := by
  induction s with
  | nil =>
    intro c hc
    simp only [splitComps, List.mem_singleton] at hc
    subst hc; simp
  | cons a rest ih =>
    intro c hc
    by_cases ha : a = '/'
    · rw [splitComps, if_pos ha] at hc
      rcases List.mem_cons.mp hc with h | h
      · subst h; simp
      · exact ih c h
    · rw [splitComps, if_neg ha] at hc
      rcases hsp : splitComps rest with _ | ⟨comp, comps⟩ <;> rw [hsp] at hc
      · simp only [List.mem_singleton] at hc
        subst hc
        simp only [List.mem_singleton]
        exact fun h => ha h.symm
      · rcases List.mem_cons.mp hc with h | h
        · subst h
          intro hm
          rcases List.mem_cons.mp hm with h2 | h2
          · exact ha h2.symm
          · exact ih comp (hsp ▸ List.mem_cons_self comp comps) h2
        · exact ih c (hsp ▸ List.mem_cons_of_mem comp h)

/-- A slash-free string is a single component. -/
theorem splitComps_single (a : List Char) (h : '/' ∉ a) : splitComps a = [a] := by
  induction a with
  | nil => rfl
  | cons c rest ih =>
    have hc : c ≠ '/' := fun e => h (e ▸ List.mem_cons_self c rest)
    have hrest : '/' ∉ rest := fun m => h (List.mem_cons_of_mem c m)
    rw [splitComps, if_neg hc, ih hrest]

/-- Splitting at the first separator after a slash-free prefix. -/
theorem splitComps_append_slash (a rest : List Char) (h : '/' ∉ a) :
    splitComps (a ++ '/' :: rest) = a :: splitComps rest := by
  induction a with
  | nil =>
    simp [splitComps]
  | cons c a1 ih =>
    have hc : c ≠ '/' := fun e => h (e ▸ List.mem_cons_self c a1)
    have ha1 : '/' ∉ a1 := fun m => h (List.mem_cons_of_mem c m)
    rw [List.cons_append, splitComps, if_neg hc, ih ha1]

/-- Unfolding `joinComps` on a list with at least two components. -/
theorem joinComps_cons (c : List Char) (cs : List (List Char)) (h : cs ≠ []) :
    joinComps (c :: cs) = c ++ '/' :: joinComps cs := by
  cases cs with
  | nil => exact absurd rfl h
  | cons c2 t => rfl

/-- Splitting inverts joining for slash-free components. -/
theorem splitComps_joinComps (cs : List (List Char)) (hne : cs ≠ [])
    (hns : ∀ c ∈ cs, '/' ∉ c) : splitComps (joinComps cs) = cs := by
  induction cs with
  | nil => exact absurd rfl hne
  | cons c t ih =>
    cases t with
    | nil => simpa [joinComps] using splitComps_single c (hns c (List.mem_cons_self c []))
    | cons c2 t2 =>
      rw [joinComps_cons c (c2 :: t2) (by simp),
        splitComps_append_slash c _ (hns c (List.mem_cons_self _ _)),
        ih (by simp) (fun x hx => hns x (List.mem_cons_of_mem c hx))]

/-- The last component of a component list. -/
def lastComp : List (List Char) → List Char
  | [] => []
  | [c] => c
  | _ :: rest => lastComp rest

/-- `lastComp` skips over a head before a non-empty tail. -/
theorem lastComp_cons (c : List Char) (cs : List (List Char)) (h : cs ≠ []) :
    lastComp (c :: cs) = lastComp cs := by
  cases cs with
  | nil => exact absurd rfl h
  | cons _ _ => rfl

/-- `lastComp` of a snoc. -/
theorem lastComp_append_single (cs : List (List Char)) (c : List Char) :
    lastComp (cs ++ [c]) = c := by
  induction cs with
  | nil => rfl
  | cons d t ih => rw [List.cons_append, lastComp_cons d (t ++ [c]) (by simp), ih]

/-- The final component of `name ++ ".flv"` carries the `.flv` suffix. -/
theorem lastComp_flv (name : List Char) :
    ∃ t, lastComp (splitComps (name ++ flvExt)) = t ++ flvExt := by
  induction name with
  | nil =>
    refine ⟨[], ?_⟩
    rw [List.nil_append, splitComps_single flvExt (by decide)]
    rfl
  | cons c xs ih =>
    obtain ⟨t, ht⟩ := ih
    by_cases hc : c = '/'
    · refine ⟨t, ?_⟩
      rw [List.cons_append, splitComps, if_pos hc,
        lastComp_cons _ _ (splitComps_ne_nil _), ht]
    · rw [List.cons_append, splitComps, if_neg hc]
      rcases h1 : splitComps (xs ++ flvExt) with _ | ⟨comp, comps⟩
      · exact absurd h1 (splitComps_ne_nil _)
      · rw [h1] at ht
        cases comps with
        | nil =>
          refine ⟨c :: t, ?_⟩
          have : comp = t ++ flvExt := ht
          simp [lastComp, this]
        | cons d t2 =>
          refine ⟨t, ?_⟩
          rw [lastComp_cons _ _ (by simp)]
          rw [lastComp_cons _ _ (by simp)] at ht
          exact ht

/-- The `.flv`-suffixed final component is a normal component. -/
theorem goodC_flv (t : List Char) : GoodC (t ++ flvExt) := by
  have hlen : (t ++ flvExt).length = t.length + 4 := by simp [flvExt]
  refine ⟨?_, ?_, ?_⟩ <;> intro h <;> rw [h] at hlen <;> simp at hlen

/-- In a rooted clean, a `..` leaves only stack components behind. -/
theorem popDotDot_true_mem (acc : List (List Char)) :
    ∀ c ∈ popDotDot true acc, c ∈ acc := by
  intro c hc
  cases acc with
  | nil => simp [popDotDot] at hc
  | cons top accRest =>
    by_cases htop : top = ['.', '.']
    · simp only [popDotDot, if_pos htop] at hc
      rcases List.mem_cons.mp hc with h | h
      · subst h
        rw [← htop]
        exact List.mem_cons_self _ _
      · exact h
    · simp only [popDotDot, if_neg htop] at hc
      exact List.mem_cons_of_mem _ hc

/-- In a rooted clean, every kept component comes from the stack or is
a normal input component. -/
theorem cleanWork_mem :
    ∀ l acc c, c ∈ cleanWork true acc l → c ∈ acc ∨ (c ∈ l ∧ GoodC c) := by
  intro l
  induction l with
  | nil =>
    intro acc c hc
    rw [cleanWork_nil] at hc
    exact Or.inl (List.mem_reverse.mp hc)
  | cons d rest ih =>
    intro acc c hc
    rw [cleanWork_cons] at hc
    split_ifs at hc with h1 h2
    · rcases ih acc c hc with h | h
      · exact Or.inl h
      · exact Or.inr ⟨List.mem_cons_of_mem _ h.1, h.2⟩
    · rcases ih (popDotDot true acc) c hc with h | h
      · exact Or.inl (popDotDot_true_mem acc c h)
      · exact Or.inr ⟨List.mem_cons_of_mem _ h.1, h.2⟩
    · rcases ih (d :: acc) c hc with h | h
      · rcases List.mem_cons.mp h with h3 | h3
        · subst h3
          refine Or.inr ⟨List.mem_cons_self _ _, ?_, ?_, h2⟩
          · exact fun e => h1 (Or.inl e)
          · exact fun e => h1 (Or.inr e)
        · exact Or.inl h3
      · exact Or.inr ⟨List.mem_cons_of_mem _ h.1, h.2⟩

/-- Normal components pass through the cleaning loop untouched. -/
theorem cleanWork_pass (rooted : Bool) :
    ∀ l acc, (∀ c ∈ l, GoodC c) → cleanWork rooted acc l = acc.reverse ++ l := by
  intro l
  induction l with
  | nil => intro acc _; simp [cleanWork]
  | cons d rest ih =>
    intro acc hg
    obtain ⟨hd1, hd2, hd3⟩ := hg d (List.mem_cons_self _ _)
    have hrest : ∀ c ∈ rest, GoodC c := fun c hc => hg c (List.mem_cons_of_mem _ hc)
    rw [cleanWork_cons, if_neg (by tauto), if_neg hd3, ih (d :: acc) hrest]
    simp

/-- The cleaning loop keeps a good final component last. -/
theorem cleanWork_last (rooted : Bool) :
    ∀ l acc, l ≠ [] → GoodC (lastComp l) →
      cleanWork rooted acc l ≠ [] ∧
      lastComp (cleanWork rooted acc l) = lastComp l := by
  intro l
  induction l with
  | nil => intro acc h _; exact absurd rfl h
  | cons d rest ih =>
    intro acc _ hg
    cases rest with
    | nil =>
      have hgd : GoodC d := hg
      obtain ⟨hd1, hd2, hd3⟩ := hgd
      rw [cleanWork_cons, if_neg (by tauto), if_neg hd3, cleanWork_nil]
      refine ⟨by simp, ?_⟩
      rw [List.reverse_cons, lastComp_append_single]
      rfl
    | cons e rest2 =>
      have hlast : lastComp (d :: e :: rest2) = lastComp (e :: rest2) := rfl
      rw [hlast] at hg
      rw [hlast, cleanWork_cons]
      split_ifs with h1 h2
      · exact ih acc (by simp) hg
      · exact ih (popDotDot rooted acc) (by simp) hg
      · exact ih (d :: acc) (by simp) hg

/-- The base-directory name as characters, without its trailing slash. -/
def rcvd : List Char := "received".toList

/-- The structure of every resolved publish path: the base directory
followed by a non-empty sequence of normal (no `..`, no `.`, no empty,
no slash) components. -/
theorem resolvePath_structure (name : List Char) :
    ∃ cs, cs ≠ [] ∧ (∀ c ∈ cs, GoodC c ∧ '/' ∉ c) ∧
      resolvePath name = rcvd ++ '/' :: joinComps cs := by
  have hsne : name ++ flvExt ≠ [] := by simp [flvExt]
  obtain ⟨t, ht⟩ := lastComp_flv name
  have hgood : GoodC (lastComp (splitComps (name ++ flvExt))) := ht ▸ goodC_flv t
  have hlastcs := cleanWork_last true (splitComps (name ++ flvExt)) []
    (splitComps_ne_nil _) hgood
  refine ⟨cleanWork true [] (splitComps (name ++ flvExt)), hlastcs.1, ?_, ?_⟩
  · intro c hc
    rcases cleanWork_mem (splitComps (name ++ flvExt)) [] c hc with h | h
    · exact absurd h (List.not_mem_nil c)
    · exact ⟨h.2, splitComps_no_slash _ c h.1⟩
  · set s := name ++ flvExt with hs
    set cs := cleanWork true [] (splitComps s) with hcs
    have hcsne : cs ≠ [] := hlastcs.1
    have hnoslash : ∀ c ∈ cs, '/' ∉ c := by
      intro c hc
      rcases cleanWork_mem (splitComps s) [] c hc with h | h
      · exact absurd h (List.not_mem_nil c)
      · exact splitComps_no_slash _ c h.1
    have hgoodcs : ∀ c ∈ cs, GoodC c := by
      intro c hc
      rcases cleanWork_mem (splitComps s) [] c hc with h | h
      · exact absurd h (List.not_mem_nil c)
      · exact h.2
    have hA : joinPath ['/'] s = clean ('/' :: '/' :: s) := by
      rw [joinPath, if_neg (by simp)]
      rfl
    have hskip2 : cleanWork true [] ([] :: [] :: splitComps s) = cs := by
      rw [cleanWork_cons, if_pos (Or.inl rfl), cleanWork_cons, if_pos (Or.inl rfl)]
    have hB : clean ('/' :: '/' :: s) = '/' :: joinComps cs := by
      rw [clean, if_neg (by simp),
        if_pos (show ('/' :: '/' :: s : List Char).head? = some '/' from rfl)]
      have : splitComps ('/' :: '/' :: s) = [] :: [] :: splitComps s := by
        rw [splitComps, if_pos rfl, splitComps, if_pos rfl]
      rw [this, hskip2]
    have hC : clean ('/' :: joinComps cs) = '/' :: joinComps cs := by
      rw [clean, if_neg (by simp),
        if_pos (show ('/' :: joinComps cs : List Char).head? = some '/' from rfl)]
      have h1 : splitComps ('/' :: joinComps cs) = [] :: cs := by
        rw [splitComps, if_pos rfl, splitComps_joinComps cs hcsne hnoslash]
      rw [h1, cleanWork_cons, if_pos (Or.inl rfl), cleanWork_pass true cs [] hgoodcs,
        List.reverse_nil, List.nil_append]
    have hD : joinPath receivedDir ('/' :: joinComps cs) =
        clean (rcvd ++ '/' :: '/' :: '/' :: joinComps cs) := by
      rw [joinPath, if_neg (by decide)]
      have : receivedDir ++ '/' :: '/' :: joinComps cs =
          rcvd ++ '/' :: '/' :: '/' :: joinComps cs := by
        have hrd : receivedDir = rcvd ++ ['/'] := by decide
        rw [hrd, List.append_assoc]
        rfl
      rw [this]
    have hE : clean (rcvd ++ '/' :: '/' :: '/' :: joinComps cs) =
        rcvd ++ '/' :: joinComps cs := by
      have hhead : (rcvd ++ '/' :: '/' :: '/' :: joinComps cs).head? = some 'r' := by
        have : rcvd = 'r' :: "eceived".toList := by decide
        rw [this]
        rfl
      rw [clean, if_neg (by simp [rcvd])]
      rw [hhead]
      rw [if_neg (by decide)]
      have h1 : splitComps (rcvd ++ '/' :: '/' :: '/' :: joinComps cs) =
          rcvd :: [] :: [] :: cs := by
        rw [splitComps_append_slash rcvd _ (by decide), splitComps, if_pos rfl,
          splitComps, if_pos rfl, splitComps_joinComps cs hcsne hnoslash]
      rw [h1]
      have h2 : cleanWork false [] (rcvd :: [] :: [] :: cs) = rcvd :: cs := by
        rw [cleanWork_cons, if_neg (by decide), if_neg (by decide),
          cleanWork_cons, if_pos (Or.inl rfl), cleanWork_cons, if_pos (Or.inl rfl),
          cleanWork_pass false cs [rcvd] hgoodcs]
        rfl
      rw [h2]
      rw [if_neg (by simp)]
      rw [joinComps_cons rcvd cs hcsne]
    rw [resolvePath, hA, hB, hC, hD, hE]

/-- C1: every resolved publish path stays inside the base directory
`received/` — it starts with the base prefix and contains no `..`
component — and in particular the traversal name `"../../etc/passwd"`
resolves to `received/etc/passwd.flv`. -/
theorem publish_path_contained :
    (∀ name, withinBase (resolvePath name) = true) ∧
    resolvePath ("../../etc/passwd".toList) = "received/etc/passwd.flv".toList := by
  constructor
  · intro name
    obtain ⟨cs, hne, hmem, heq⟩ := resolvePath_structure name
    rw [heq, withinBase, Bool.and_eq_true]
    constructor
    · have hrd : receivedDir = rcvd ++ ['/'] := by decide
      have hpre : receivedDir <+: rcvd ++ '/' :: joinComps cs := by
        refine ⟨joinComps cs, ?_⟩
        rw [hrd, List.append_assoc]
        rfl
      exact List.isPrefixOf_iff_prefix.mpr hpre
    · rw [List.all_eq_true]
      intro c hc
      have hsplit : splitComps (rcvd ++ '/' :: joinComps cs) = rcvd :: cs := by
        rw [splitComps_append_slash rcvd _ (by decide),
          splitComps_joinComps cs hne (fun x hx => (hmem x hx).2)]
      rw [hsplit] at hc
      rcases List.mem_cons.mp hc with h | h
      · subst h; decide
      · simp only [Bool.not_eq_eq_eq_not, Bool.not_true, decide_eq_false_iff_not]
        exact (hmem c h).1.2.2
  · decide

end FindingWaldo
